import Mathlib

/-!
# Verification of the zmtools utility library

A shallow embedding of `zmtools/api.py` and proofs about it.

Python strings are modelled as `List Char` (a Python `str` is a sequence of
code points); the case functions, whitespace handling and integer parsing are
modelled for the ASCII range, which `Char.toUpper`/`Char.toLower` implement
exactly as CPython does for basic latin characters.  Exceptions are modelled
as values carrying the exception type name and message (the same data
`exception_to_dict` serialises), fallible functions return `Except`, and the
console/process side effects of `run_with_loading` are recorded as an event
trace in the order the caller performs them.
-/

deriving instance DecidableEq for Except

/-! ## Python string primitives -/

/-- The whitespace characters stripped by Python `str.strip()` (ASCII range):
space, tab, newline, carriage return, vertical tab, form feed. -/
def pyIsSpace (c : Char) : Bool :=
  c = ' ' || c = '\t' || c = '\n' || c = '\r' || c = '\x0b' || c = '\x0c'

/-- Python `s.strip()`: drop leading and trailing whitespace. -/
def pyStrip (s : List Char) : List Char :=
  ((s.dropWhile pyIsSpace).reverse.dropWhile pyIsSpace).reverse

/-- Python `sep.join(ws)`: concatenate `ws` with `sep` between elements. -/
def pyJoin (sep : List Char) : List (List Char) → List Char
  | [] => []
  | [w] => w
  | w :: ws => w ++ sep ++ pyJoin sep ws

/-- Python prefix slice `s[:n]` for an `int` bound `n` (negative bounds count
from the end, out-of-range bounds are clamped). -/
def pyTakeTo (s : List Char) (n : Int) : List Char :=
  s.take (if n < 0 then ((s.length : Int) + n).toNat else n.toNat)

/-! ## String helpers from `zmtools/api.py` -/

/-- `capitalize_each_word(s, delimiter)` from `api.py`:
`delimiter.join([w.capitalize() for w in s.split(delimiter)])`.
`pyCapitalize` and `pySplit` model `str.capitalize` and `str.split` below. -/
def pyCapitalize (w : List Char) : List Char :=
  match w with
  | [] => []
  | c :: rest => Char.toUpper c :: rest.map Char.toLower

/-- Python `s.split(d)` for a non-empty separator string `d`: scan left to
right, cutting at each leftmost occurrence of `d`.  Structural recursion on a
fuel bound (`s.length + 1` steps always suffice for non-empty `d`). -/
def pySplitAux : Nat → List Char → List Char → List Char → List (List Char)
  | 0, _, s, acc => [acc.reverse ++ s]
  | fuel + 1, d, s, acc =>
    match s with
    | [] => [acc.reverse]
    | c :: rest =>
      if s.take d.length = d then
        acc.reverse :: pySplitAux fuel d (s.drop d.length) []
      else
        pySplitAux fuel d rest (c :: acc)

/-- Python `s.split(d)` (explicit non-empty separator). -/
def pySplit (d s : List Char) : List (List Char) :=
  pySplitAux (s.length + 1) d s []

/-- `capitalize_each_word` from `api.py`. -/
def capitalize_each_word (s delimiter : List Char) : List Char :=
  pyJoin delimiter ((pySplit delimiter s).map pyCapitalize)

/-- `strip_each_line(s)` from `api.py`:
`"\n".join([line.strip() for line in s])`.
Iterating a Python `str` yields its characters, so each element `line` of the
comprehension is a one-character string. -/
def strip_each_line (s : List Char) : List Char :=
  pyJoin ['\n'] (s.map (fun ch => pyStrip [ch]))

/-- The line-based stripping described by the docstring of `strip_each_line`
and expected by `tests/test_api.py::test_strip_each_line`: split into lines,
strip each line, and join the stripped lines with newlines. -/
def stripEachLineDoc (s : List Char) : List Char :=
  pyJoin ['\n'] ((pySplit ['\n'] s).map pyStrip)

/-- `truncate(s, length, elipsis)` from `api.py`. -/
def truncate (s : List Char) (length : Int) (elipsis : Bool) : List Char :=
  let test_length := if elipsis then length + 3 else length
  if (s.length : Int) > test_length then
    let truncated := pyStrip (pyTakeTo s length)
    if elipsis then truncated ++ ['.', '.', '.'] else truncated
  else
    s

/-! ## Exceptions and the working-directory scope -/

/-- A Python exception value, reduced to the data `exception_to_dict`
serialises: its type name and its message. -/
structure PyExc where
  ty : List Char
  msg : List Char
deriving DecidableEq

/-- The mutable process state touched by `working_directory`: the current
working directory of the process. -/
structure ProcState where
  cwd : List Char
deriving DecidableEq

/-- `working_directory(path)` from `api.py`, a context manager:
`owd = os.getcwd(); os.chdir(path); try: yield; finally: os.chdir(owd)`.
The managed body is any state transformer that may also raise; the state is
threaded explicitly. -/
def working_directory (path : List Char)
    (body : ProcState → ProcState × Except PyExc Unit) (s : ProcState) :
    ProcState × Except PyExc Unit :=
  let owd := s.cwd
  let s1 : ProcState := { cwd := path }
  let (s2, r) := body s1
  ({ s2 with cwd := owd }, r)

/-! ## File read helper -/

/-- The error raised by a text read of a missing file. -/
inductive FileReadError where
  | fileNotFoundError
deriving DecidableEq

/-- Modelled from the spec: the repository's file-read helper
(`read_text_file`, called by `tests/test_api.py` but absent from
`src/zmtools/api.py`) — "read whole file as text (optionally tolerating a
missing file by returning empty text)"; "File read with `not_exists_ok=True`
on a nonexistent path returns empty text; with `not_exists_ok=False`
propagates a missing-file error."  The file system is modelled as a partial
map from paths to file contents. -/
def read_text_file (fs : List Char → Option (List Char)) (path : List Char)
    (not_exists_ok : Bool) : Except FileReadError (List Char) :=
  match fs path with
  | some text => .ok text
  | none => if not_exists_ok then .ok [] else .error .fileNotFoundError

/-! ## `run_with_loading` -/

/-- The caller-side effects of `run_with_loading`, in the order the caller
performs them: `p.start()`, the synchronous call of `function`,
`p.terminate()`, the status-line write, and the final `print()`. -/
inductive RunEvent where
  | processStart
  | invokeOperation
  | processTerminate
  | writeStatus (line : List Char)
  | printNewline
deriving DecidableEq

/-- What `run_with_loading` does after the status line: either re-raise the
captured exception, or return the tuple `(output, succeded)` where `output`
is the function's return value or the captured exception. -/
inductive RWLResult (α : Type) where
  | raised (e : PyExc)
  | returned (output : α ⊕ PyExc) (succeded : Bool)
deriving DecidableEq

/-- The status line written by `run_with_loading`:
`sys.stdout.write(f"\33[2K\r{phrase} {c}")`. -/
def statusLine (phrase c : List Char) : List Char :=
  '\x1b' :: '[' :: '2' :: 'K' :: '\r' :: (phrase ++ ' ' :: c)

/-- `run_with_loading` from `api.py`.  The operation `function(*args,
**kwargs)` is modelled by its outcome (`Except.ok` a return value, or
`Except.error` a raised exception); `evaluate_function` returns the truth
value Python takes of its result.  Returns the event trace of the caller's
effects together with the result.  Mirrors the source: on normal return,
success is decided by `evaluate_function is None or evaluate_function(output)`
and the matching glyph is written; on an exception the failure glyph is
written and the exception is re-raised exactly when `raise_exc` is true,
otherwise `(e, False)` is returned. -/
def run_with_loading {α : Type} (function : Except PyExc α)
    (phrase completed_success_string completed_failure_string : List Char)
    (evaluate_function : Option (α → Bool)) (raise_exc : Bool) :
    List RunEvent × RWLResult α :=
  match function with
  | .ok output =>
    let succeded :=
      match evaluate_function with
      | none => true
      | some f => f output
    let c := if succeded then completed_success_string else completed_failure_string
    ([.processStart, .invokeOperation, .processTerminate,
      .writeStatus (statusLine phrase c), .printNewline],
     .returned (.inl output) succeded)
  | .error e =>
    ([.processStart, .invokeOperation, .processTerminate,
      .writeStatus (statusLine phrase completed_failure_string), .printNewline],
     if raise_exc then .raised e else .returned (.inr e) false)

/-! ## Theorems: `run_with_loading` (C1 - C4) -/

/-- C1: for every operation and configuration, `run_with_loading` re-raises
an error raised by the operation if and only if `raise_exc` is true,
re-raising the same error (type and message) after writing the status line
with the failure glyph; when `raise_exc` is false it returns the pair of the
captured error and a false success flag; it never both raises and returns. -/
theorem run_with_loading_error_semantics {α : Type} (function : Except PyExc α)
    (e : PyExc) (phrase cs cf : List Char) (ef : Option (α → Bool))
    (raise_exc : Bool) (h : function = .error e) :
    ((run_with_loading function phrase cs cf ef raise_exc).2 = .raised e
      ↔ raise_exc = true)
    ∧ (raise_exc = false →
        (run_with_loading function phrase cs cf ef raise_exc).2
          = .returned (.inr e) false)
    ∧ ¬((run_with_loading function phrase cs cf ef raise_exc).2 = .raised e
        ∧ (run_with_loading function phrase cs cf ef raise_exc).2
            = .returned (.inr e) false)
    ∧ (run_with_loading function phrase cs cf ef raise_exc).1
        = [.processStart, .invokeOperation, .processTerminate,
           .writeStatus (statusLine phrase cf), .printNewline] := by
  subst h
  cases raise_exc <;> simp [run_with_loading]

theorem run_with_loading_error_semantics_witness :
    (run_with_loading (Except.error ⟨"ValueError".toList, "boom".toList⟩ : Except PyExc Nat)
        "Loading...".toList "s".toList "f".toList none true).2
      = .raised ⟨"ValueError".toList, "boom".toList⟩
    ∧ (run_with_loading (Except.error ⟨"ValueError".toList, "boom".toList⟩ : Except PyExc Nat)
        "Loading...".toList "s".toList "f".toList none false).2
      = .returned (.inr ⟨"ValueError".toList, "boom".toList⟩) false :=
  ⟨(run_with_loading_error_semantics _ _ _ _ _ none true rfl).1.mpr rfl,
   (run_with_loading_error_semantics _ _ _ _ _ none false rfl).2.1 rfl⟩

/-- C2: for every operation that returns normally, the success flag is true
when no `evaluate_function` is supplied (and the printed status line ends
with the success glyph), and with an `evaluate_function` the success flag is
the truth value of the evaluator on the return value, the return value being
the outcome value. -/
theorem run_with_loading_ok_semantics {α : Type} (function : Except PyExc α)
    (v : α) (phrase cs cf : List Char) (raise_exc : Bool) (h : function = .ok v) :
    ((run_with_loading function phrase cs cf none raise_exc).2
        = .returned (.inl v) true
      ∧ (run_with_loading function phrase cs cf none raise_exc).1
          = [.processStart, .invokeOperation, .processTerminate,
             .writeStatus (statusLine phrase cs), .printNewline]
      ∧ cs <:+ statusLine phrase cs)
    ∧ ∀ f : α → Bool,
        (run_with_loading function phrase cs cf (some f) raise_exc).2
          = .returned (.inl v) (f v) := by
  subst h
  refine ⟨⟨rfl, rfl, ⟨'\x1b' :: '[' :: '2' :: 'K' :: '\r' :: (phrase ++ [' ']), by
    simp [statusLine]⟩⟩, fun f => ?_⟩
  cases hfv : f v <;> simp [run_with_loading, hfv]

theorem run_with_loading_ok_semantics_witness :
    (run_with_loading (Except.ok 42 : Except PyExc Nat)
        "Loading...".toList "s".toList "f".toList none true).2
      = .returned (.inl 42) true
    ∧ (run_with_loading (Except.ok 42 : Except PyExc Nat)
        "Loading...".toList "s".toList "f".toList (some (fun _ => false)) true).2
      = .returned (.inl 42) false :=
  ⟨(run_with_loading_ok_semantics _ 42 _ _ _ true rfl).1.1,
   (run_with_loading_ok_semantics _ 42 _ _ _ true rfl).2 (fun _ => false)⟩

/-- C3: in every invocation, the caller-side effects happen in this strict
order: animation process start, then operation invocation, then animation
process termination, then the status-line write (then the newline), before
the function returns or re-raises. -/
theorem run_with_loading_event_order {α : Type} (function : Except PyExc α)
    (phrase cs cf : List Char) (ef : Option (α → Bool)) (raise_exc : Bool) :
    ∃ c, (run_with_loading function phrase cs cf ef raise_exc).1
        = [.processStart, .invokeOperation, .processTerminate,
           .writeStatus (statusLine phrase c), .printNewline]
      ∧ (c = cs ∨ c = cf) := by
  cases function with
  | ok v =>
    cases ef with
    | none => exact ⟨cs, rfl, Or.inl rfl⟩
    | some f =>
      cases hfv : f v
      · exact ⟨cf, by simp [run_with_loading, hfv], Or.inr rfl⟩
      · exact ⟨cs, by simp [run_with_loading, hfv], Or.inl rfl⟩
  | error e => exact ⟨cf, rfl, Or.inr rfl⟩

/-- C4: for every normally-returning operation and every evaluator that is
falsy on its return value, `run_with_loading` returns the pair of the return
value and a false success flag, and never raises, even when `raise_exc` is
true: `raise_exc` only applies to raised errors. -/
theorem run_with_loading_evaluator_false_returns {α : Type}
    (function : Except PyExc α) (v : α) (f : α → Bool)
    (phrase cs cf : List Char) (raise_exc : Bool)
    (h : function = .ok v) (hf : f v = false) :
    (run_with_loading function phrase cs cf (some f) raise_exc).2
      = .returned (.inl v) false := by
  subst h
  simp [run_with_loading, hf]

theorem run_with_loading_evaluator_false_returns_witness :
    ((fun _ : Nat => false) 7 = false)
    ∧ (run_with_loading (Except.ok 7 : Except PyExc Nat)
        "Loading...".toList "s".toList "f".toList (some (fun _ => false)) true).2
      = .returned (.inl 7) false :=
  ⟨rfl, run_with_loading_evaluator_false_returns _ 7 (fun _ => false) _ _ _ true rfl rfl⟩

/-! ## Theorems: string helpers and scopes (C6 - C9) -/

/-- C6: `truncate "A decently long string" 10 true = "A decently..."`,
`truncate "no" 1 false = "n"`, and every string whose length is at most the
effective threshold (`length + 3` with the elipsis, `length` without) is
returned unchanged. -/
theorem truncate_spec :
    truncate "A decently long string".toList 10 true = "A decently...".toList
    ∧ truncate "no".toList 1 false = "n".toList
    ∧ ∀ (s : List Char) (length : Int) (elipsis : Bool),
        (s.length : Int) ≤ (if elipsis then length + 3 else length) →
        truncate s length elipsis = s := by
  refine ⟨by decide, by decide, fun s length elipsis h => ?_⟩
  have hno : ¬ ((s.length : Int) > if elipsis then length + 3 else length) :=
    not_lt.mpr h
  simp only [truncate]
  rw [if_neg hno]

theorem truncate_spec_witness :
    ((("hi".toList).length : Int) ≤ (if true then 25 + 3 else 25))
    ∧ truncate "hi".toList 25 true = "hi".toList :=
  ⟨by decide, truncate_spec.2.2 "hi".toList 25 true (by decide)⟩

/-- C7 (code bug): `strip_each_line` is documented and tested as stripping
each line of the string, but the source iterates over the characters of the
string (`for line in s` on a `str`), so at the repository's own test input
"word" it returns "w\no\nr\nd" instead of "word", the newline-join of the
stripped lines. -/
theorem strip_each_line_iterates_chars :
    strip_each_line "word".toList = "w\no\nr\nd".toList
    ∧ stripEachLineDoc "word".toList = "word".toList
    ∧ strip_each_line "word".toList ≠ stripEachLineDoc "word".toList := by
  exact ⟨by decide, by decide, by decide⟩

/-- C8: for every nonexistent path, the file-read helper returns empty text
with `not_exists_ok = true` and a missing-file error with
`not_exists_ok = false`.  (`read_text_file` is modelled from the spec; it is
called by the repository's tests but absent from `src`.) -/
theorem read_text_file_missing (fs : List Char → Option (List Char))
    (path : List Char) (h : fs path = none) :
    read_text_file fs path true = .ok []
    ∧ read_text_file fs path false = .error .fileNotFoundError := by
  simp [read_text_file, h]

theorem read_text_file_missing_witness :
    ((fun _ : List Char => (none : Option (List Char))) "p".toList = none)
    ∧ read_text_file (fun _ => none) "p".toList true = .ok []
    ∧ read_text_file (fun _ => none) "p".toList false = .error .fileNotFoundError :=
  ⟨rfl, (read_text_file_missing _ _ rfl).1, (read_text_file_missing _ _ rfl).2⟩

/-- C9: for every path, body and starting state, `working_directory` runs the
body with the working directory set to the given path and restores the prior
working directory afterwards, both when the body returns normally and when it
exits with an error (the body's outcome, normal or raised, is passed
through unchanged). -/
theorem working_directory_frame (path : List Char)
    (body : ProcState → ProcState × Except PyExc Unit) (s : ProcState) :
    (working_directory path body s).1.cwd = s.cwd
    ∧ working_directory path body s = ({ cwd := s.cwd }, (body { cwd := path }).2) := by
  have h : working_directory path body s
      = ({ cwd := s.cwd }, (body { cwd := path }).2) := by
    unfold working_directory
    rcases hb : body { cwd := path } with ⟨s2, r⟩
    simp [hb]
  exact ⟨by rw [h], h⟩

/-! ## `picker` -/

/-- Numeric value of a list of decimal digits. -/
def digitsToNat (ds : List Char) : Nat :=
  ds.foldl (fun acc c => acc * 10 + (c.toNat - 48)) 0

/-- The body of a Python nonnegative integer literal as accepted by `int()`:
decimal digits, possibly in groups separated by single underscores
(`"1_000"`); every group must be non-empty and all digits. -/
def pyParseDigits (s : List Char) : Option Nat :=
  if (s.splitOn '_').all (fun g => !g.isEmpty && g.all Char.isDigit) then
    some (digitsToNat ((s.splitOn '_').flatten))
  else
    none

/-- Python `int(s)` for a string argument (ASCII): strip whitespace, an
optional sign, then a digit body; anything else raises ValueError, modelled
as `none`. -/
def pyInt (s : List Char) : Option Int :=
  match pyStrip s with
  | '+' :: rest => (pyParseDigits rest).map (fun n => (n : Int))
  | '-' :: rest => (pyParseDigits rest).map (fun n => -(n : Int))
  | t => (pyParseDigits t).map (fun n => (n : Int))

/-- The exceptions `picker` can raise: `ValueError` (with its message) or
`IndexError` from the final list indexing. -/
inductive PickerError where
  | valueError (msg : List Char)
  | indexError
deriving DecidableEq

/-- Python list subscription `items[i]` with an `int` index: a negative index
counts from the end; an index out of range raises IndexError. -/
def pyGetItem {α : Type} (items : List α) (i : Int) : Except PickerError α :=
  let j := if i < 0 then i + items.length else i
  if 0 ≤ j then
    match items[j.toNat]? with
    | some x => .ok x
    | none => .error .indexError
  else
    .error .indexError

/-- `picker(items, item_name)` from `api.py`.  The line read by `input()` is
passed explicitly as `user_input`; the numbered menu printed to the console
is decorative and not modelled.  Mirrors the source: empty list raises
`ValueError(f"Not a single {item_name} to pick from")`; a single-item list
returns `items[0]` without reading input; otherwise the input is parsed with
`int` (ValueError "Invalid input" on failure) and `items[choice_index - 1]`
is returned. -/
def picker {α : Type} (items : List α) (item_name user_input : List Char) :
    Except PickerError α :=
  if items.isEmpty then
    .error (.valueError ("Not a single ".toList ++ item_name ++ " to pick from".toList))
  else if h1 : items.length = 1 then
    .ok (items.get ⟨0, by omega⟩)
  else
    match pyInt user_input with
    | none => .error (.valueError "Invalid input".toList)
    | some choice_index => pyGetItem items (choice_index - 1)

/-! ## Theorems: `picker` (C5) -/

theorem pyGetItem_err {α : Type} (items : List α) (i : Int)
    (h : (items.length : Int) ≤ i ∨ i + (items.length : Int) < 0) :
    pyGetItem items i = .error .indexError := by
  simp only [pyGetItem]
  by_cases hn : i < 0
  · rw [if_pos hn, if_neg (show ¬ (0 : Int) ≤ i + items.length by omega)]
  · rw [if_neg hn, if_pos (show (0 : Int) ≤ i by omega),
      List.getElem?_eq_none (by omega)]

theorem pyGetItem_nonneg {α : Type} (items : List α) (i : Int) (d : α)
    (h0 : 0 ≤ i) (hl : i < (items.length : Int)) :
    pyGetItem items i = .ok (items.getD i.toNat d) := by
  simp only [pyGetItem]
  rw [if_neg (show ¬ i < 0 by omega), if_pos h0,
    List.getElem?_eq_getElem (by omega), List.getD_eq_getElem _ _ (by omega)]

theorem pyGetItem_negIdx {α : Type} (items : List α) (i : Int) (d : α)
    (hneg : i < 0) (h0 : 0 ≤ i + (items.length : Int)) :
    pyGetItem items i = .ok (items.getD (i + items.length).toNat d) := by
  simp only [pyGetItem]
  rw [if_pos hneg, if_pos h0, List.getElem?_eq_getElem (by omega),
    List.getD_eq_getElem _ _ (by omega)]

/-- C5 (amended): `picker` raises the empty-choice ValueError for every
empty list; for every single-item list it returns that item without
prompting (the result is independent of the input); with at least two items,
every non-numeric input raises the invalid-selection ValueError; a numeric
selection `n` raises IndexError when `n > len(items)` or `n ≤ -len(items)`;
an in-range 1-based selection `n` returns the `n`-th item; but an
out-of-range selection `n` with `-len(items) < n ≤ 0` does not raise: by
Python's negative indexing it returns the `(len(items) + n)`-th item. -/
theorem picker_spec {α : Type} :
    (∀ (name input : List Char),
      picker ([] : List α) name input
        = .error (.valueError ("Not a single ".toList ++ name ++ " to pick from".toList)))
    ∧ (∀ (x : α) (name input input2 : List Char),
      picker [x] name input = .ok x ∧ picker [x] name input = picker [x] name input2)
    ∧ (∀ (items : List α) (name input : List Char), 2 ≤ items.length →
      pyInt input = none →
      picker items name input = .error (.valueError "Invalid input".toList))
    ∧ (∀ (items : List α) (name input : List Char) (n : Int), 2 ≤ items.length →
      pyInt input = some n →
      ((items.length : Int) < n ∨ n + (items.length : Int) ≤ 0 →
        picker items name input = .error .indexError)
      ∧ (1 ≤ n → n ≤ (items.length : Int) → ∀ d : α,
        picker items name input = .ok (items.getD (n.toNat - 1) d))
      ∧ (0 < n + (items.length : Int) → n ≤ 0 → ∀ d : α,
        picker items name input = .ok (items.getD (n - 1 + items.length).toNat d))) := by
  refine ⟨fun name input => by simp [picker],
    fun x name input input2 => ⟨by simp [picker], by simp [picker]⟩,
    fun items name input h2 hparse => ?_,
    fun items name input n h2 hparse => ?_⟩
  · have h0 : items.isEmpty = false := by
      cases items with
      | nil => simp at h2
      | cons a t => simp
    have h1 : ¬ items.length = 1 := by omega
    simp [picker, h0, h1, hparse]
  · have h0 : items.isEmpty = false := by
      cases items with
      | nil => simp at h2
      | cons a t => simp
    have h1 : ¬ items.length = 1 := by omega
    have hred : picker items name input = pyGetItem items (n - 1) := by
      simp [picker, h0, h1, hparse]
    refine ⟨fun hout => ?_, fun hge hle d => ?_, fun hgt hle d => ?_⟩
    · rw [hred]
      exact pyGetItem_err items (n - 1) (by omega)
    · rw [hred, pyGetItem_nonneg items (n - 1) d (by omega) (by omega)]
      have : (n - 1).toNat = n.toNat - 1 := by omega
      rw [this]
    · rw [hred, pyGetItem_negIdx items (n - 1) d (by omega) (by omega)]

theorem picker_spec_witness :
    picker ([] : List Nat) "choice".toList "2".toList
      = .error (.valueError ("Not a single ".toList ++ "choice".toList ++ " to pick from".toList))
    ∧ picker [9] "choice".toList "x".toList = .ok 9
    ∧ picker [1, 2, 3, 4] "choice".toList "2".toList = .ok 2
    ∧ picker [10, 20] "choice".toList "5".toList = .error .indexError
    ∧ picker [10, 20] "choice".toList "a".toList
      = .error (.valueError "Invalid input".toList)
    ∧ picker [10, 20] "choice".toList "-1".toList = .ok 10 := by
  refine ⟨picker_spec.1 _ _, (picker_spec.2.1 9 _ _ "y".toList).1, ?_, ?_, ?_, ?_⟩
  · have h := (picker_spec.2.2.2 [1, 2, 3, 4] "choice".toList "2".toList 2
      (by decide) (by decide)).2.1 (by decide) (by decide) 0
    simpa using h
  · exact (picker_spec.2.2.2 [10, 20] "choice".toList "5".toList 5
      (by decide) (by decide)).1 (Or.inl (by decide))
  · exact picker_spec.2.2.1 [10, 20] "choice".toList "a".toList (by decide) (by decide)
  · have h := (picker_spec.2.2.2 [10, 20] "choice".toList "-1".toList (-1)
      (by decide) (by decide)).2.2 (by decide) (by decide) 0
    simpa using h

/-- C5 counterexample: the numeric selection 0 is out of range for a 1-based
menu over two items, yet `picker` does not raise: `items[0 - 1]` is Python
`items[-1]`, the last item. -/
theorem picker_zero_selection_returns :
    ¬ (1 ≤ (0 : Int) ∧ (0 : Int) ≤ (([10, 20] : List Nat).length : Int))
    ∧ picker [10, 20] "choice".toList "0".toList = .ok 20 := by
  exact ⟨by decide, by decide⟩

/-! ## `capitalize_each_word` (C10): character-level case lemmas -/

theorem char_toNat_ofNat_valid {n : Nat} (h : n < 55296) :
    (Char.ofNat n).toNat = n := by
  unfold Char.ofNat
  rw [dif_pos (Or.inl h)]
  rfl

theorem char_eq_iff_toNat {a b : Char} : a = b ↔ a.toNat = b.toNat :=
  ⟨fun h => h ▸ rfl, fun h => by
    rw [← Char.ofNat_toNat a, ← Char.ofNat_toNat b, h]⟩

theorem toLower_toNat_of_upper {c : Char} (h : 65 ≤ c.toNat ∧ c.toNat ≤ 90) :
    (Char.toLower c).toNat = c.toNat + 32 := by
  simp only [Char.toLower]
  rw [if_pos ⟨h.1, h.2⟩]
  exact char_toNat_ofNat_valid (by omega)

theorem toLower_of_not_upper {c : Char} (h : ¬(65 ≤ c.toNat ∧ c.toNat ≤ 90)) :
    Char.toLower c = c := by
  simp only [Char.toLower]
  rw [if_neg (fun hc => h ⟨hc.1, hc.2⟩)]

theorem toUpper_toNat_of_lower {c : Char} (h : 97 ≤ c.toNat ∧ c.toNat ≤ 122) :
    (Char.toUpper c).toNat = c.toNat - 32 := by
  simp only [Char.toUpper]
  rw [if_pos ⟨h.1, h.2⟩]
  exact char_toNat_ofNat_valid (by omega)

theorem toUpper_of_not_lower {c : Char} (h : ¬(97 ≤ c.toNat ∧ c.toNat ≤ 122)) :
    Char.toUpper c = c := by
  simp only [Char.toUpper]
  rw [if_neg (fun hc => h ⟨hc.1, hc.2⟩)]

theorem toLower_toLower (c : Char) :
    Char.toLower (Char.toLower c) = Char.toLower c := by
  by_cases h : 65 ≤ c.toNat ∧ c.toNat ≤ 90
  · have h1 := toLower_toNat_of_upper h
    exact toLower_of_not_upper (by omega)
  · simp only [toLower_of_not_upper h]

theorem toUpper_toUpper (c : Char) :
    Char.toUpper (Char.toUpper c) = Char.toUpper c := by
  by_cases h : 97 ≤ c.toNat ∧ c.toNat ≤ 122
  · have h1 := toUpper_toNat_of_lower h
    exact toUpper_of_not_lower (by omega)
  · simp only [toUpper_of_not_lower h]

/-- `c` is an ASCII letter, i.e. a character the Python ASCII case maps can
change or produce. -/
def isCasedAscii (c : Char) : Prop :=
  (65 ≤ c.toNat ∧ c.toNat ≤ 90) ∨ (97 ≤ c.toNat ∧ c.toNat ≤ 122)

instance (c : Char) : Decidable (isCasedAscii c) :=
  inferInstanceAs
    (Decidable ((65 ≤ c.toNat ∧ c.toNat ≤ 90) ∨ (97 ≤ c.toNat ∧ c.toNat ≤ 122)))

/-- `b` is obtained from `a` by at most one application of a case map. -/
def caseLink (a b : Char) : Prop :=
  b = a ∨ b = Char.toLower a ∨ b = Char.toUpper a

theorem caseLink_refl (a : Char) : caseLink a a := Or.inl rfl

/-- For a non-letter `x`, a case-mapped character equals `x` exactly when the
original character does. -/
theorem caseLink_eq_iff {a b x : Char} (hx : ¬ isCasedAscii x)
    (h : caseLink a b) : b = x ↔ a = x := by
  have hx1 : ¬(65 ≤ x.toNat ∧ x.toNat ≤ 90) := fun hc => hx (Or.inl hc)
  have hx2 : ¬(97 ≤ x.toNat ∧ x.toNat ≤ 122) := fun hc => hx (Or.inr hc)
  rcases h with h | h | h
  · rw [h]
  · subst h
    constructor
    · intro h2
      by_cases hu : 65 ≤ a.toNat ∧ a.toNat ≤ 90
      · have h3 := toLower_toNat_of_upper hu
        rw [char_eq_iff_toNat] at h2
        omega
      · rwa [toLower_of_not_upper hu] at h2
    · intro h2
      subst h2
      exact toLower_of_not_upper hx1
  · subst h
    constructor
    · intro h2
      by_cases hl : 97 ≤ a.toNat ∧ a.toNat ≤ 122
      · have h3 := toUpper_toNat_of_lower hl
        rw [char_eq_iff_toNat] at h2
        omega
      · rwa [toUpper_of_not_lower hl] at h2
    · intro h2
      subst h2
      exact toUpper_of_not_lower hx2

/-- `CaseEquiv u v`: `v` is `u` with a case map applied to some of its
characters. -/
inductive CaseEquiv : List Char → List Char → Prop where
  | nil : CaseEquiv [] []
  | cons {a b : Char} {as bs : List Char} :
      caseLink a b → CaseEquiv as bs → CaseEquiv (a :: as) (b :: bs)

theorem caseEquiv_refl (l : List Char) : CaseEquiv l l := by
  induction l with
  | nil => exact .nil
  | cons a as ih => exact .cons (caseLink_refl a) ih

theorem caseEquiv_append {u1 v1 u2 v2 : List Char}
    (h1 : CaseEquiv u1 v1) (h2 : CaseEquiv u2 v2) :
    CaseEquiv (u1 ++ u2) (v1 ++ v2) := by
  induction h1 with
  | nil => exact h2
  | cons hl _ ih => exact .cons hl ih

theorem caseEquiv_map_toLower (l : List Char) :
    CaseEquiv l (l.map Char.toLower) := by
  induction l with
  | nil => exact .nil
  | cons a as ih => exact .cons (Or.inr (Or.inl rfl)) ih

theorem caseEquiv_cap (w : List Char) : CaseEquiv w (pyCapitalize w) := by
  cases w with
  | nil => exact .nil
  | cons c rest => exact .cons (Or.inr (Or.inr rfl)) (caseEquiv_map_toLower rest)

theorem caseEquiv_drop (n : Nat) {u v : List Char} (h : CaseEquiv u v) :
    CaseEquiv (u.drop n) (v.drop n) := by
  induction n generalizing u v with
  | zero => simpa using h
  | succ n ih =>
    cases h with
    | nil => exact .nil
    | cons hl h2 => simpa using ih h2

theorem caseEquiv_take (n : Nat) {u v : List Char} (h : CaseEquiv u v) :
    CaseEquiv (u.take n) (v.take n) := by
  induction n generalizing u v with
  | zero => exact .nil
  | succ n ih =>
    cases h with
    | nil => exact .nil
    | cons hl h2 => exact .cons hl (ih h2)

theorem caseEquiv_eq_iff {u v d : List Char} (hd : ∀ c ∈ d, ¬ isCasedAscii c)
    (h : CaseEquiv u v) : v = d ↔ u = d := by
  induction h generalizing d with
  | nil => exact Iff.rfl
  | cons hl _ ih =>
    cases d with
    | nil => simp
    | cons d0 d1 =>
      simp only [List.cons.injEq]
      exact and_congr (caseLink_eq_iff (hd d0 (by simp)) hl)
        (ih (fun c hc => hd c (by simp [hc])))

/-! ## `capitalize_each_word` (C10): occurrences of the delimiter -/

/-- The separator `d` occurs in `s` at position `p`. -/
def occursAt (d s : List Char) (p : Nat) : Prop :=
  (s.drop p).take d.length = d

instance (d s : List Char) (p : Nat) : Decidable (occursAt d s p) :=
  inferInstanceAs (Decidable ((s.drop p).take d.length = d))

theorem occursAt_le {d s : List Char} {p : Nat} (hd : d ≠ [])
    (h : occursAt d s p) : p + d.length ≤ s.length := by
  have hlen := congrArg List.length h
  simp only [List.length_take, List.length_drop] at hlen
  have : 0 < d.length := List.length_pos.mpr hd
  omega

theorem occursAt_succ_cons {d rest : List Char} {c : Char} {p : Nat} :
    occursAt d (c :: rest) (p + 1) ↔ occursAt d rest p := Iff.rfl

theorem occursAt_append_left {a x d : List Char} {p : Nat}
    (hp : p + d.length ≤ a.length) :
    occursAt d (a ++ x) p ↔ occursAt d a p := by
  unfold occursAt
  rw [List.drop_append_of_le_length (by omega),
    List.take_append_of_le_length (by simp; omega)]

theorem occursAt_iff_of_caseEquiv {u v d : List Char}
    (hd : ∀ c ∈ d, ¬ isCasedAscii c) (h : CaseEquiv u v) (p : Nat) :
    occursAt d v p ↔ occursAt d u p :=
  caseEquiv_eq_iff hd (caseEquiv_take d.length (caseEquiv_drop p h))

/-! ## `capitalize_each_word` (C10): behavior of `pySplit` -/

theorem take_eq_iff_occursAt_zero {d s : List Char} :
    s.take d.length = d ↔ occursAt d s 0 := by
  unfold occursAt
  rw [List.drop_zero]

theorem pySplitAux_fuel {d : List Char} (hd : d ≠ []) :
    ∀ (fuel1 fuel2 : Nat) (s acc : List Char), s.length < fuel1 →
      s.length < fuel2 → pySplitAux fuel1 d s acc = pySplitAux fuel2 d s acc := by
  have hdl : 0 < d.length := List.length_pos.mpr hd
  intro fuel1
  induction fuel1 with
  | zero => intro fuel2 s acc h1 h2; omega
  | succ f ih =>
    intro fuel2 s acc h1 h2
    cases fuel2 with
    | zero => omega
    | succ f2 =>
      cases s with
      | nil => rfl
      | cons c rest =>
        simp only [pySplitAux]
        by_cases hc : (c :: rest).take d.length = d
        · rw [if_pos hc, if_pos hc]
          have hb := occursAt_le hd (take_eq_iff_occursAt_zero.mp hc)
          simp only [List.length_cons, Nat.zero_add] at hb h1 h2
          have hl : ((c :: rest).drop d.length).length < f := by
            simp only [List.length_drop, List.length_cons]
            omega
          have hl2 : ((c :: rest).drop d.length).length < f2 := by
            simp only [List.length_drop, List.length_cons]
            omega
          rw [ih f2 _ [] hl hl2]
        · rw [if_neg hc, if_neg hc]
          exact ih f2 rest (c :: acc) (by simp at h1 ⊢; omega)
            (by simp at h2 ⊢; omega)

theorem pySplitAux_ne_nil (fuel : Nat) (d : List Char) :
    ∀ (s acc : List Char), pySplitAux fuel d s acc ≠ [] := by
  induction fuel with
  | zero => intro s acc; simp [pySplitAux]
  | succ f ih =>
    intro s acc
    cases s with
    | nil => simp [pySplitAux]
    | cons c rest =>
      simp only [pySplitAux]
      split
      · simp
      · exact ih rest (c :: acc)

theorem pySplit_ne_nil (d s : List Char) : pySplit d s ≠ [] :=
  pySplitAux_ne_nil _ d s []

theorem pySplitAux_no_occ {d : List Char} (_hd : d ≠ []) :
    ∀ (fuel : Nat) (s acc : List Char), s.length < fuel →
      (∀ p, ¬ occursAt d s p) →
      pySplitAux fuel d s acc = [acc.reverse ++ s] := by
  intro fuel
  induction fuel with
  | zero => intro s acc h1 _; omega
  | succ f ih =>
    intro s acc h1 hocc
    cases s with
    | nil => simp [pySplitAux]
    | cons c rest =>
      simp only [pySplitAux]
      rw [if_neg (fun hc => hocc 0 (take_eq_iff_occursAt_zero.mp hc))]
      rw [ih rest (c :: acc) (by simp at h1 ⊢; omega)
        (fun p => hocc (p + 1))]
      simp

theorem pySplit_no_occ {d s : List Char} (hd : d ≠ [])
    (hocc : ∀ p, ¬ occursAt d s p) : pySplit d s = [s] := by
  unfold pySplit
  rw [pySplitAux_no_occ hd _ s [] (by omega) hocc]
  simp

theorem pySplitAux_first_occ {d : List Char} (hd : d ≠ []) :
    ∀ (w : List Char) (t : List Char) (fuel : Nat) (acc : List Char),
      (w ++ d ++ t).length < fuel →
      (∀ p < w.length, ¬ occursAt d (w ++ d ++ t) p) →
      pySplitAux fuel d (w ++ d ++ t) acc = (acc.reverse ++ w) :: pySplit d t := by
  have hdl : 0 < d.length := List.length_pos.mpr hd
  intro w
  induction w with
  | nil =>
    intro t fuel acc h1 _
    cases fuel with
    | zero => omega
    | succ f =>
      cases d with
      | nil => exact absurd rfl hd
      | cons d0 d1 =>
        simp only [List.nil_append] at h1 ⊢
        simp only [List.cons_append, pySplitAux]
        rw [if_pos (by
          rw [← List.cons_append]
          exact List.take_left (d0 :: d1) t)]
        rw [← List.cons_append, List.drop_left (d0 :: d1) t]
        have ht : t.length < f := by
          simp only [List.length_append, List.length_cons] at h1
          omega
        rw [pySplitAux_fuel hd f (t.length + 1) t [] ht (by omega)]
        simp [pySplit]
  | cons c w2 ih =>
    intro t fuel acc h1 hearly
    cases fuel with
    | zero => omega
    | succ f =>
      simp only [List.cons_append, pySplitAux]
      rw [if_neg (fun hc => hearly 0 (by simp)
        (take_eq_iff_occursAt_zero.mp (by simpa using hc)))]
      rw [ih t f (c :: acc) (by simp at h1 ⊢; omega)
        (fun p hp => by
          have := hearly (p + 1) (by simp; omega)
          simpa using this)]
      simp

theorem pySplit_first_occ {d : List Char} (hd : d ≠ []) {w t : List Char}
    (hearly : ∀ p < w.length, ¬ occursAt d (w ++ d ++ t) p) :
    pySplit d (w ++ d ++ t) = w :: pySplit d t := by
  unfold pySplit
  rw [pySplitAux_first_occ hd w t ((w ++ d ++ t).length + 1) [] (by omega) hearly]
  simp [pySplit]

/-- Decompose a string at the leftmost occurrence of the separator. -/
theorem exists_first_occ {d s : List Char} (hd : d ≠ [])
    (h : ∃ p, occursAt d s p) :
    ∃ w t, s = w ++ d ++ t ∧ (∀ p < w.length, ¬ occursAt d s p) ∧
      t.length < s.length := by
  have hdl : 0 < d.length := List.length_pos.mpr hd
  let p0 := Nat.find h
  have hp0 : occursAt d s p0 := Nat.find_spec h
  have hmin : ∀ p < p0, ¬ occursAt d s p := fun p hp => Nat.find_min h hp
  have hb : p0 + d.length ≤ s.length := occursAt_le hd hp0
  refine ⟨s.take p0, s.drop (p0 + d.length), ?_, ?_, ?_⟩
  · have h2 : (s.drop p0).take d.length ++ (s.drop p0).drop d.length
        = s.drop p0 := List.take_append_drop _ _
    have h3 : (s.drop p0).drop d.length = s.drop (p0 + d.length) :=
      List.drop_drop d.length p0 s
    unfold occursAt at hp0
    calc s = s.take p0 ++ s.drop p0 := (List.take_append_drop p0 s).symm
      _ = s.take p0 ++ ((s.drop p0).take d.length ++ (s.drop p0).drop d.length) := by
          rw [h2]
      _ = s.take p0 ++ d ++ s.drop (p0 + d.length) := by
          rw [hp0, h3, ← List.append_assoc]
  · intro p hp
    exact hmin p (by simp only [List.length_take] at hp; omega)
  · simp only [List.length_drop]
    omega

theorem pyJoin_cons_of_ne {sep w : List Char} {ws : List (List Char)}
    (h : ws ≠ []) : pyJoin sep (w :: ws) = w ++ sep ++ pyJoin sep ws := by
  cases ws with
  | nil => exact absurd rfl h
  | cons x xs => rfl

theorem pyCapitalize_length (w : List Char) :
    (pyCapitalize w).length = w.length := by
  cases w with
  | nil => rfl
  | cons c rest => simp [pyCapitalize]

theorem pyCapitalize_idem (w : List Char) :
    pyCapitalize (pyCapitalize w) = pyCapitalize w := by
  cases w with
  | nil => rfl
  | cons c rest =>
    simp only [pyCapitalize, List.map_map]
    rw [toUpper_toUpper]
    congr 1
    exact List.map_congr_left (fun a _ => toLower_toLower a)

/-- Key lemma: when the delimiter contains no ASCII letter, splitting the
word-capitalised rejoin recovers exactly the capitalised words. -/
theorem pySplit_capJoin {d : List Char} (hd : d ≠ [])
    (hnc : ∀ c ∈ d, ¬ isCasedAscii c) :
    ∀ s, pySplit d (pyJoin d ((pySplit d s).map pyCapitalize))
      = (pySplit d s).map pyCapitalize := by
  suffices H : ∀ (n : Nat) (s : List Char), s.length ≤ n →
      pySplit d (pyJoin d ((pySplit d s).map pyCapitalize))
        = (pySplit d s).map pyCapitalize by
    exact fun s => H s.length s le_rfl
  intro n
  induction n with
  | zero =>
    intro s hs
    have hs0 : s = [] := by
      cases s with
      | nil => rfl
      | cons a t => simp at hs
    subst hs0
    rfl
  | succ n ih =>
    intro s hs
    by_cases hocc : ∃ p, occursAt d s p
    · obtain ⟨w, t, hdecomp, hearly, hlt⟩ := exists_first_occ hd hocc
      subst hdecomp
      rw [pySplit_first_occ hd hearly, List.map_cons]
      have htne : (pySplit d t).map pyCapitalize ≠ [] := by
        simp [pySplit_ne_nil d t]
      rw [pyJoin_cons_of_ne htne]
      have hearly2 : ∀ p < (pyCapitalize w).length,
          ¬ occursAt d (pyCapitalize w ++ d ++
            pyJoin d ((pySplit d t).map pyCapitalize)) p := by
        intro p hp
        rw [pyCapitalize_length] at hp
        rw [occursAt_append_left (by
          simp only [List.length_append, pyCapitalize_length]; omega)]
        rw [occursAt_iff_of_caseEquiv hnc
          (caseEquiv_append (caseEquiv_cap w) (caseEquiv_refl d)) p]
        rw [← occursAt_append_left (x := t) (by
          simp only [List.length_append]; omega)]
        exact hearly p hp
      rw [pySplit_first_occ hd hearly2]
      have hih : t.length ≤ n := by
        simp only [List.length_append] at hs hlt
        omega
      rw [ih t hih]
    · push_neg at hocc
      rw [pySplit_no_occ hd hocc]
      show pySplit d (pyCapitalize s) = [pyCapitalize s]
      refine pySplit_no_occ hd (fun p => ?_)
      rw [occursAt_iff_of_caseEquiv hnc (caseEquiv_cap s) p]
      exact hocc p

/-! ## Theorems: `capitalize_each_word` (C10) -/

/-- C10 (amended): `capitalize_each_word` is idempotent for every string and
every non-empty delimiter containing no ASCII letter (in particular for the
usual delimiters such as a space, underscore or newline); capitalisation can
rewrite letters into a letter of the delimiter and thereby change the word
boundaries of the second pass, so the unrestricted statement fails. -/
theorem capitalize_each_word_idem (s d : List Char) (hd : d ≠ [])
    (hnc : ∀ c ∈ d, ¬ isCasedAscii c) :
    capitalize_each_word (capitalize_each_word s d) d
      = capitalize_each_word s d := by
  unfold capitalize_each_word
  rw [pySplit_capJoin hd hnc s]
  congr 1
  rw [List.map_map]
  exact List.map_congr_left (fun a _ => pyCapitalize_idem a)

theorem capitalize_each_word_idem_witness :
    (" ".toList ≠ ([] : List Char) ∧ ∀ c ∈ " ".toList, ¬ isCasedAscii c)
    ∧ capitalize_each_word
        (capitalize_each_word "hello out there".toList " ".toList) " ".toList
      = capitalize_each_word "hello out there".toList " ".toList :=
  ⟨⟨by decide, by decide⟩,
    capitalize_each_word_idem "hello out there".toList " ".toList
      (by decide) (by decide)⟩

/-- C10 counterexample: with the delimiter "a", capitalising "BAB" gives
"Bab", which now contains the delimiter, so a second pass splits differently
and produces "BaB": `capitalize_each_word` is not idempotent for every
non-empty delimiter. -/
theorem capitalize_each_word_not_idem :
    capitalize_each_word (capitalize_each_word "BAB".toList "a".toList) "a".toList
      ≠ capitalize_each_word "BAB".toList "a".toList := by
  decide
